import Mathlib

/-!
Verification of the pe64-parse repository: a PE (Portable Executable)
decoder built on the `byteparse` deserialization library.

The development shallowly embeds the Rust sources:
  * `byteparse/src/lib.rs` — little-endian scalar copy (`Bytecopy::copy_to`)
    and the stream-based `Byteparse::parse_to` contract;
  * `byteparse/byteparse-derive/src/lib.rs` — the derived composite
    `parse_to`, modelled as a recursion over a field-type tree;
  * `src/main.rs` — section-table address translation (`conv_rva`),
    NUL-terminated string reading (`read_str`), export decoding
    (`load_exports`), import decoding (`load_imports`) and header
    validation (`parse_self`).

Modelling conventions:
  * The byte source (a `Cursor` over an in-memory buffer in the program) is
    a `List Nat` of byte values; seek-then-`read_exact` at offset `off` for
    `len` bytes succeeds exactly when `off + len` is within the buffer.
  * Machine integers are `Nat` with explicit `% 2 ^ w` where the Rust code
    truncates (`as u16`) or where release-mode wrapping arithmetic applies
    (`u32` addition in `conv_rva`, `u16` addition for export ordinals).
  * Strings are kept as raw byte lists. `String::from_utf8_lossy` only
    substitutes invalid UTF-8 sequences and never alters ASCII bytes, so
    the '.'-splitting and ".dll"-appending logic of the forwarder path is
    modelled directly on bytes (46 is '.', [46,100,108,108] is ".dll").
  * Fallible reads return `Option`; `none` is an I/O error. `read_until`
    on an in-memory cursor cannot fail (end of input is success), so
    `read_str` is total.
  * The two directory walks of `load_imports` are loops whose exit is
    data-driven; they are modelled with an explicit fuel parameter.
-/

/-! ## The byteparse library (byteparse/src/lib.rs) -/

/-- `Read::read_exact` on a stream: consume exactly `len` bytes or fail,
returning the bytes read and the rest of the stream. -/
def readExactStream (s : List Nat) (len : Nat) : Option (List Nat × List Nat) :=
  if len ≤ s.length then some (s.take len, s.drop len) else none

/-- `<int>::from_le_bytes`: little-endian interpretation of a byte list. -/
def fromLeBytes : List Nat → Nat
  | [] => 0
  | b :: bs => b + 256 * fromLeBytes bs

/-- `Bytecopy::copy_to` for an unsigned `width`-byte integer: read exactly
`width` bytes from the stream and decode them little-endian.  A short read
is an I/O error that leaves the destination value unwritten. -/
def copy_to (width : Nat) (s : List Nat) : Option (Nat × List Nat) :=
  match readExactStream s width with
  | some (buf, rest) => some (fromLeBytes buf, rest)
  | none => none

/-- Two's-complement reinterpretation performed by `from_le_bytes` on the
signed types `i8..i128`/`isize`. -/
def toSigned (width : Nat) (v : Nat) : Int :=
  if v < 2 ^ (8 * width - 1) then (v : Int) else (v : Int) - 2 ^ (8 * width)

/-- `Bytecopy::copy_to` for a signed `width`-byte integer. -/
def copy_to_signed (width : Nat) (s : List Nat) : Option (Int × List Nat) :=
  match copy_to width s with
  | some (v, rest) => some (toSigned width v, rest)
  | none => none

/-! ## The derived composite parser (byteparse-derive/src/lib.rs)

A `#[derive(Byteparse)]` type is a tree: scalar leaves (fixed-width
integers, handled by `Bytecopy`) and composite nodes whose generated
`parse_to` invokes `parse_to` on every field in source-declaration order,
short-circuiting with `?` on the first error.  Arrays behave like tuple
structs of their elements and need no separate case. -/

inductive Ty where
  | scalar (width : Nat) : Ty
  | comp (fields : List Ty) : Ty

inductive Val where
  | scalar (v : Nat) : Val
  | comp (vs : List Val) : Val

mutual

/-- `Byteparse::parse_to(&mut self, r)`: the result is the new value, the
remaining stream, and a success flag.  On failure the returned value is
whatever the in-place mutation left behind (scalars are untouched,
composites keep the fields already overwritten). -/
def parseTo : Ty → Val → List Nat → Val × List Nat × Bool
  | Ty.scalar w, v, s =>
    match readExactStream s w with
    | some (buf, rest) => (Val.scalar (fromLeBytes buf), rest, true)
    | none => (v, s, false)
  | Ty.comp ts, Val.comp vs, s =>
    match parseFields ts vs s with
    | (vs', s', ok) => (Val.comp vs', s', ok)
  | Ty.comp _, v, s => (v, s, false)

/-- The field-by-field loop emitted by the derive macro: parse each field
in declaration order, stopping at the first failure.  (The mismatched
second case is unreachable for a value of the right shape.) -/
def parseFields : List Ty → List Val → List Nat → List Val × List Nat × Bool
  | [], vs, s => (vs, s, true)
  | _ :: _, [], s => ([], s, true)
  | t :: ts, v :: vs, s =>
    match parseTo t v s with
    | (v', s', true) =>
      match parseFields ts vs s' with
      | (vs', s'', ok) => (v' :: vs', s'', ok)
    | (v', s', false) => (v' :: vs, s', false)

end

/-! ## Byte source (seek + read) used by main.rs

`at::<U>(off)` seeks the cursor to `off` and parses `U` from there; for a
`k`-byte field this is `read_exact` of `k` bytes at absolute offset
`off`, failing when the buffer ends too early. -/

/-- Seek to `off`, then `read_exact` of `len` bytes. -/
def readExact (mem : List Nat) (off len : Nat) : Option (List Nat) :=
  if off + len ≤ mem.length then some ((mem.drop off).take len) else none

/-- `at::<u16>`: a little-endian u16 at absolute offset `off`. -/
def readU16 (mem : List Nat) (off : Nat) : Option Nat :=
  match readExact mem off 2 with
  | some bs => some (fromLeBytes bs)
  | none => none

/-- `at::<u32>`: a little-endian u32 at absolute offset `off`. -/
def readU32 (mem : List Nat) (off : Nat) : Option Nat :=
  match readExact mem off 4 with
  | some bs => some (fromLeBytes bs)
  | none => none

/-- `at::<u64>`: a little-endian u64 at absolute offset `off`. -/
def readU64 (mem : List Nat) (off : Nat) : Option Nat :=
  match readExact mem off 8 with
  | some bs => some (fromLeBytes bs)
  | none => none

/-! ## Sections and address translation (main.rs) -/

/-- The `Section` record built by `load_sections`; all numeric fields are
`u32` in the source. -/
structure Section where
  name : List Nat
  virt_addr : Nat
  virt_len : Nat
  raw_addr : Nat
  raw_len : Nat
  flags : Nat
deriving DecidableEq

/-- The containment test of `conv_rva`:
`rva >= sec.virt_addr as u64 && rva < (sec.virt_addr + sec.virt_len) as u64`.
The upper bound is a `u32` addition (wrapping modulo `2^32` under release
semantics) performed before the widening cast to `u64`. -/
def sectionMatches (sec : Section) (rva : Nat) : Bool :=
  decide (sec.virt_addr ≤ rva) && decide (rva < (sec.virt_addr + sec.virt_len) % 2 ^ 32)

/-- `conv_rva`: walk the section list in table order; the first section
whose range contains the address translates it to
`rva - virt_addr + raw_addr`; otherwise the address is returned
unchanged. -/
def conv_rva (secs : List Section) (rva : Nat) : Nat :=
  match secs with
  | [] => rva
  | sec :: rest =>
    if sectionMatches sec rva then rva - sec.virt_addr + sec.raw_addr
    else conv_rva rest rva

/-- Spec-side description of the address translator (spec section 4.2,
claim C1): the first section in table order whose mathematical half-open
range `[virt_addr, virt_addr + virt_len)` contains the address translates
it, and a miss is the identity. -/
def translateSpec (secs : List Section) (addr : Nat) : Nat :=
  match secs.find? (fun s => decide (s.virt_addr ≤ addr) && decide (addr < s.virt_addr + s.virt_len)) with
  | some s => s.raw_addr + (addr - s.virt_addr)
  | none => addr

/-! ## String reading (main.rs, read_str) -/

/-- `BufRead::read_until(0, buf)` on an in-memory cursor: the bytes read,
up to and including the first 0, or everything to end of input when no 0
occurs (end of input is success, not an error). -/
def read_until0 : List Nat → List Nat
  | [] => []
  | b :: rest => if b = 0 then [0] else b :: read_until0 rest

/-- `read_str`: translate the address, seek there, `read_until` the NUL,
then drop the final byte (`buf.len().saturating_sub(1)`) and return the
rest.  Total, because `read_until` on an in-memory source cannot fail. -/
def read_str (mem : List Nat) (secs : List Section) (rva : Nat) : List Nat :=
  let buf := read_until0 (mem.drop (conv_rva secs rva))
  buf.take (buf.length - 1)

/-! ## Export decoding (main.rs, load_exports) -/

/-- First index of the list satisfying `p`.  Models both
`splitn(2, '.')` (first separator position) and the `FnvHashSet` of
`OrdEntry` keyed only on the ordinal, whose `collect` keeps the first
occurrence of each ordinal value. -/
def firstIdx (p : Nat → Bool) : List Nat → Option Nat
  | [] => none
  | a :: l => if p a then some 0 else (firstIdx p l).map (· + 1)

/-- Decode a bulk-read byte buffer as consecutive little-endian u16s
(`buf.chunks(2)` with `u16::from_le_bytes`). -/
def toU16List : List Nat → List Nat
  | a :: b :: rest => (a + 256 * b) :: toU16List rest
  | _ => []

inductive ExportAddr where
  | Rva (v : Nat) : ExportAddr
  | Forwarded (mf : List Nat × List Nat) : ExportAddr
deriving DecidableEq

structure Export where
  name : Option (List Nat)
  addr : ExportAddr
  ord : Nat
deriving DecidableEq

/-- The forwarder classification of `load_exports`: split the forwarder
string at most once on '.' (byte 46); with a separator the module is the
prefix with ".dll" (bytes [46,100,108,108]) appended and the function is
the suffix; with no separator the module is the whole string and the
function is empty. -/
def forwardOf (s : List Nat) : ExportAddr :=
  match firstIdx (fun b => b == 46) s with
  | some k => ExportAddr.Forwarded (s.take k ++ [46, 100, 108, 108], s.drop (k + 1))
  | none => ExportAddr.Forwarded (s, [])

/-- The ambient state of the `load_exports` loop: the byte source, the
section table, the export data-directory RVA and size, the `names` and
`funcs` array RVAs, the directory `base`, and the decoded name-ordinal
array (in table order). -/
structure ExpCtx where
  mem : List Nat
  secs : List Section
  dir_rva : Nat
  dir_len : Nat
  names : Nat
  funcs : Nat
  base : Nat
  ords : List Nat

/-- One iteration of the `load_exports` loop at table index `i`:
look up `i as u16` in the ordinal table (first occurrence), fetch and
translate the name RVA when present, read the function RVA, classify it
as forwarder or direct RVA, and emit the record with ordinal
`export.base as u16 + i as u16` (u16 truncations and wrapping addition,
hence the `% 65536`). -/
def exportEntry (c : ExpCtx) (i : Nat) : Option Export :=
  match (match firstIdx (fun o => o == i % 65536) c.ords with
         | some ni =>
           match readU32 c.mem (conv_rva c.secs (c.names + ni * 4)) with
           | some nameRva => some (some (read_str c.mem c.secs nameRva))
           | none => none
         | none => some none) with
  | none => none
  | some name =>
    match readU32 c.mem (conv_rva c.secs (c.funcs + i * 4)) with
    | none => none
    | some func =>
      let addr := if c.dir_rva ≤ func ∧ func < c.dir_rva + c.dir_len
                  then forwardOf (read_str c.mem c.secs func)
                  else ExportAddr.Rva func
      some { name := name, addr := addr, ord := (c.base % 65536 + i % 65536) % 65536 }

/-- The `for i in 0..number_of_functions` loop of `load_exports`,
as a recursion on the remaining count `k`, current index `i`. -/
def exportLoop (c : ExpCtx) : Nat → Nat → Option (List Export)
  | _, 0 => some []
  | i, k + 1 =>
    match exportEntry c i with
    | none => none
    | some e =>
      match exportLoop c (i + 1) k with
      | none => none
      | some rest => some (e :: rest)

/-- `ImageExportDirectory`, the fields `load_exports` consumes.
Modelled from the spec: the struct lives in `src/pe.rs` which is not in
the sources; its layout is the published PE/COFF 40-byte export directory
(base at offset 16, number_of_functions at 20, number_of_names at 24,
address_of_functions at 28, address_of_names at 32,
address_of_name_ordinals at 36), as spec section 6 requires. -/
structure ImageExportDirectory where
  base : Nat
  number_of_functions : Nat
  number_of_names : Nat
  address_of_functions : Nat
  address_of_names : Nat
  address_of_name_ordinals : Nat

/-- `at_rva::<ImageExportDirectory>`: field-by-field parse of the 40-byte
directory at absolute offset `off` (layout modelled from the spec, see
`ImageExportDirectory`). -/
def parseExportDirectory (mem : List Nat) (off : Nat) : Option ImageExportDirectory :=
  match readU32 mem (off + 16), readU32 mem (off + 20), readU32 mem (off + 24),
        readU32 mem (off + 28), readU32 mem (off + 32), readU32 mem (off + 36),
        readExact mem off 40 with
  | some b, some nf, some nn, some af, some an, some ao, some _ =>
    some ⟨b, nf, nn, af, an, ao⟩
  | _, _, _, _, _, _, _ => none

/-- `load_exports`: empty result when the export data directory has RVA 0
or size 0; otherwise parse the directory, bulk-read the name-ordinal
buffer and run the table loop.  The buffer length
`(export.number_of_names * 2) as usize` is a u32 multiplication performed
before the cast, so it wraps modulo `2^32` under release semantics. -/
def loadExports (mem : List Nat) (secs : List Section) (dir_rva dir_len : Nat) :
    Option (List Export) :=
  if dir_rva = 0 ∨ dir_len = 0 then some []
  else
    match parseExportDirectory mem (conv_rva secs dir_rva) with
    | none => none
    | some d =>
      match readExact mem (conv_rva secs d.address_of_name_ordinals)
              ((d.number_of_names * 2) % 2 ^ 32) with
      | none => none
      | some ordBytes =>
        exportLoop ⟨mem, secs, dir_rva, dir_len, d.address_of_names,
                    d.address_of_functions, d.base, toU16List ordBytes⟩
          0 d.number_of_functions

/-! ## Import decoding (main.rs, load_imports) -/

inductive ImportFunc where
  | ByName (name : List Nat) : ImportFunc
  | ByOrd (ord : Nat) : ImportFunc
deriving DecidableEq

structure Import where
  name : List Nat
  funcs : List ImportFunc
deriving DecidableEq

/-- `ImageImportDescriptor`, modelled from the spec: the struct lives in
`src/pe.rs` which is not in the sources; its layout is the published
PE/COFF 20-byte import descriptor (original_first_thunk at offset 0,
name at 12, first_thunk at 16), as spec section 6 requires. -/
structure ImageImportDescriptor where
  original_first_thunk : Nat
  time_date_stamp : Nat
  forwarder_chain : Nat
  name : Nat
  first_thunk : Nat

/-- `at_rva::<ImageImportDescriptor>`: field-by-field parse of the
20-byte descriptor at absolute offset `off`. -/
def parseImportDescriptor (mem : List Nat) (off : Nat) : Option ImageImportDescriptor :=
  match readU32 mem off, readU32 mem (off + 4), readU32 mem (off + 8),
        readU32 mem (off + 12), readU32 mem (off + 16) with
  | some a, some b, some c, some d, some e => some ⟨a, b, c, d, e⟩
  | _, _, _, _, _ => none

/-- Classification of one non-zero 8-byte thunk entry: bit 63 set means a
by-ordinal import of the low 16 bits (`entry as u16`); bit 63 clear means
a by-name import whose string sits 2 bytes past the entry value (skipping
the u16 hint). -/
def parseImportFunc (mem : List Nat) (secs : List Section) (entry : Nat) : ImportFunc :=
  if entry.testBit 63 then ImportFunc.ByOrd (entry % 65536)
  else ImportFunc.ByName (read_str mem secs (entry + 2))

/-- The inner thunk walk of `load_imports`: read 8-byte entries starting
at `addr`, stopping at a zero entry; `fuel` bounds the number of
iterations (the Rust loop exits by data or by I/O error). -/
def thunkLoop (mem : List Nat) (secs : List Section) : Nat → Nat → Option (List ImportFunc)
  | 0, _ => none
  | fuel + 1, addr =>
    match readU64 mem (conv_rva secs addr) with
    | none => none
    | some entry =>
      if entry = 0 then some []
      else
        match thunkLoop mem secs fuel (addr + 8) with
        | none => none
        | some rest => some (parseImportFunc mem secs entry :: rest)

/-- The descriptor walk of `load_imports`: read 20-byte descriptors
starting at `addr`; a descriptor with name field 0 terminates the walk
and is not added; otherwise read the module name, pick the
original-first-thunk RVA when non-zero (else the first-thunk RVA), walk
the thunk table, and continue at `addr + 20`. -/
def importLoop (mem : List Nat) (secs : List Section) (tf : Nat) :
    Nat → Nat → Option (List Import)
  | 0, _ => none
  | fuel + 1, addr =>
    match parseImportDescriptor mem (conv_rva secs addr) with
    | none => none
    | some d =>
      if d.name = 0 then some []
      else
        let lookup := if d.original_first_thunk = 0 then d.first_thunk
                      else d.original_first_thunk
        match thunkLoop mem secs tf lookup with
        | none => none
        | some funcs =>
          match importLoop mem secs tf fuel (addr + 20) with
          | none => none
          | some rest => some ({ name := read_str mem secs d.name, funcs := funcs } :: rest)

/-- `load_imports`: empty result when the import data directory has RVA 0
or size 0; otherwise walk the descriptors from the directory RVA. -/
def loadImports (mem : List Nat) (secs : List Section) (dir_rva dir_len fuel : Nat) :
    Option (List Import) :=
  if dir_rva = 0 ∨ dir_len = 0 then some []
  else importLoop mem secs fuel fuel dir_rva

/-! ## Header decoding (main.rs, parse_self / load_sections) -/

/-- `ImageSectionHeader` decoding inside `load_sections`: the header is 40
bytes (layout modelled from the spec: `src/pe.rs` is not in the sources;
the published PE/COFF section header has the 8-byte name at offset 0,
virtual_size at 8, virtual_address at 12, size_of_raw_data at 16,
pointer_to_raw_data at 20 and characteristics at 36).  The name is the
8 name bytes truncated at the first NUL (`take_while (≠ 0)`). -/
def parseSectionHeader (mem : List Nat) (off : Nat) : Option Section :=
  match readExact mem off 8, readU32 mem (off + 8), readU32 mem (off + 12),
        readU32 mem (off + 16), readU32 mem (off + 20), readU32 mem (off + 36),
        readExact mem off 40 with
  | some nm, some vs, some va, some srd, some prd, some ch, some _ =>
    some { name := nm.takeWhile (fun b => b ≠ 0), virt_addr := va, virt_len := vs,
           raw_addr := prd, raw_len := srd, flags := ch }
  | _, _, _, _, _, _, _ => none

/-- The `for i in 0..number_of_sections` loop of `load_sections`: section
header `i` sits at `base + 40 * i`. -/
def sectionLoop (mem : List Nat) (base : Nat) : Nat → Nat → Option (List Section)
  | _, 0 => some []
  | i, k + 1 =>
    match parseSectionHeader mem (base + 40 * i) with
    | none => none
    | some sec =>
      match sectionLoop mem base (i + 1) k with
      | none => none
      | some rest => some (sec :: rest)

/-- `ImageDosHeader`, the fields `parse_self` consumes.  Modelled from the
spec: `src/pe.rs` is not in the sources; the published PE/COFF DOS header
is 64 bytes with `e_magic` at offset 0 and `e_lfanew` at offset 60. -/
structure ImageDosHeader where
  e_magic : Nat
  e_lfanew : Nat

/-- `at::<ImageDosHeader>(0)`: parse the 64-byte DOS header. -/
def parseDosHeader (mem : List Nat) (off : Nat) : Option ImageDosHeader :=
  match readU16 mem off, readU32 mem (off + 60), readExact mem off 64 with
  | some m, some l, some _ => some ⟨m, l⟩
  | _, _, _ => none

/-- `ImageNtHeaders64`, the fields the parser consumes.  Modelled from the
spec: `src/pe.rs` is not in the sources; the published PE/COFF layout puts
the signature at offset 0, the file header at 4 (number_of_sections at
+6, size_of_optional_header at +20 within the NT header), the 64-bit
optional header at 24, and its 16-entry data directory at 136 (8 bytes
per entry: u32 virtual_address, u32 size).  The whole struct is 264
bytes.  `size_of::<ImageFileHeader>()` is 20. -/
structure ImageNtHeaders64 where
  signature : Nat
  number_of_sections : Nat
  size_of_optional_header : Nat
  dd0_rva : Nat
  dd0_size : Nat
  dd1_rva : Nat
  dd1_size : Nat

/-- `at::<ImageNtHeaders64>(e_lfanew)`: parse the 264-byte NT headers. -/
def parseNtHeaders (mem : List Nat) (off : Nat) : Option ImageNtHeaders64 :=
  match readU32 mem off, readU16 mem (off + 6), readU16 mem (off + 20),
        readU32 mem (off + 136), readU32 mem (off + 140),
        readU32 mem (off + 144), readU32 mem (off + 148),
        readExact mem off 264 with
  | some sg, some ns, some so, some d0r, some d0s, some d1r, some d1s, some _ =>
    some ⟨sg, ns, so, d0r, d0s, d1r, d1s⟩
  | _, _, _, _, _, _, _, _ => none

/-- The aggregate built by a successful parse. -/
structure PortableExecutable where
  dos : ImageDosHeader
  nt : ImageNtHeaders64
  secs : List Section
  exports : List Export
  imports : List Import

/-- `PortableExecutableParser::parse_self`: read the DOS header at 0 and
the NT headers at `e_lfanew`; check `e_magic` against "MZ" (LE u16
0x5A4D = 23117) and `signature` against "PE\0\0" (LE u32 0x4550 = 17744)
— a failed check aborts with no image (the `assert_eq!` panics) — then
load sections, exports and imports.  The section table offset is
`e_lfanew + size_of::<ImageFileHeader>() + size_of_optional_header + 4`. -/
def parse_self (mem : List Nat) (fuel : Nat) : Option PortableExecutable :=
  match parseDosHeader mem 0 with
  | none => none
  | some dos =>
    match parseNtHeaders mem dos.e_lfanew with
    | none => none
    | some nt =>
      if dos.e_magic = 23117 ∧ nt.signature = 17744 then
        match sectionLoop mem (dos.e_lfanew + 20 + nt.size_of_optional_header + 4)
                0 nt.number_of_sections with
        | none => none
        | some secs =>
          match loadExports mem secs nt.dd0_rva nt.dd0_size with
          | none => none
          | some exports =>
            match loadImports mem secs nt.dd1_rva nt.dd1_size fuel with
            | none => none
            | some imports => some ⟨dos, nt, secs, exports, imports⟩
      else none

/-! ## Concrete sample inputs

Small hand-built buffers used to evaluate the definitions on explicit
inputs.  `sampleSecs` maps the virtual page at 4096 to file offset 0, so
a directory RVA of 4096 translates to offset 0 while small RVAs pass
through unchanged. -/

def sampleSecs : List Section := [⟨[], 4096, 4096, 0, 0, 0⟩]

/-- An export directory (at file offset 0) with base 65535 and two
functions: table index 1 makes the u16 ordinal addition wrap.
Layout: base 65535 at 16, number_of_functions 2 at 20, number_of_names 0
at 24, address_of_functions 60 at 28; the functions array at 60 holds
RVAs 100 and 104. -/
def memOrdWrap : List Nat :=
  [0,0,0,0, 0,0,0,0, 0,0,0,0, 0,0,0,0,
   255,255,0,0, 2,0,0,0, 0,0,0,0, 60,0,0,0,
   0,0,0,0, 0,0,0,0,
   0,0,0,0, 0,0,0,0, 0,0,0,0, 0,0,0,0, 0,0,0,0,
   100,0,0,0, 104,0,0,0]

/-- An export directory (at file offset 0) with base 10, three functions
and one named entry: the name-ordinal array [1] at offset 40 marks table
index 1, the names array at 44 points to "Foo" at offset 80, and the
functions array at 60 holds RVAs 100, 104, 108. -/
def memNamed : List Nat :=
  [0,0,0,0, 0,0,0,0, 0,0,0,0, 0,0,0,0,
   10,0,0,0, 3,0,0,0, 1,0,0,0, 60,0,0,0,
   44,0,0,0, 40,0,0,0,
   1,0, 0,0, 80,0,0,0, 0,0,0,0, 0,0,0,0, 0,0,0,0,
   100,0,0,0, 104,0,0,0, 108,0,0,0,
   0,0,0,0, 0,0,0,0,
   70,111,111,0]

/-- The directory record `parseExportDirectory` reads out of `memNamed`. -/
def dirNamed : ImageExportDirectory := ⟨10, 3, 1, 60, 44, 40⟩

/-- An export directory (at file offset 0) with one function whose RVA
4140 falls inside the export directory range [4096, 4196) and translates
to offset 44, where the forwarder string "NTDLL.RtlZeroMemory" lies.
The functions array is at 80. -/
def memFwd : List Nat :=
  [0,0,0,0, 0,0,0,0, 0,0,0,0, 0,0,0,0,
   1,0,0,0, 1,0,0,0, 0,0,0,0, 80,0,0,0,
   0,0,0,0, 0,0,0,0,
   0,0,0,0,
   78,84,68,76, 76,46,82,116, 108,90,101,114, 111,77,101,109, 111,114,121,0,
   0,0,0,0, 0,0,0,0, 0,0,0,0, 0,0,0,0,
   44,16,0,0]

/-- The directory record `parseExportDirectory` reads out of `memFwd`. -/
def dirFwd : ImageExportDirectory := ⟨1, 1, 0, 80, 0, 0⟩

/-- An import area (at file offset 0): a descriptor with
original_first_thunk 40, name 70 ("Bar") and first_thunk 0, followed by
an all-zero terminator descriptor at 20.  The thunk table at 40 holds the
by-ordinal entry 2^63 + 7, then 64 (pointing at a 2-byte hint followed by
"Foo"), then the zero terminator. -/
def memImp : List Nat :=
  [40,0,0,0, 0,0,0,0, 0,0,0,0, 70,0,0,0, 0,0,0,0,
   0,0,0,0, 0,0,0,0, 0,0,0,0, 0,0,0,0, 0,0,0,0,
   7,0,0,0,0,0,0,128,
   64,0,0,0,0,0,0,0,
   0,0,0,0,0,0,0,0,
   0,0, 70,111,111,0,
   66,97,114,0]

/-- The descriptor `parseImportDescriptor` reads at offset 0 of
`memImp`. -/
def descImp : ImageImportDescriptor := ⟨40, 0, 0, 70, 0⟩

/-- A 64-byte buffer of zeros: a well-formed DOS-header read whose
`e_magic` is not "MZ". -/
def memNoMz : List Nat := List.replicate 64 0

/-! ## Helper lemmas -/

theorem fromLeBytes_eq_ofDigits (bs : List Nat) : fromLeBytes bs = Nat.ofDigits 256 bs := by
  induction bs with
  | nil => simp [fromLeBytes, Nat.ofDigits]
  | cons b t ih => simp [fromLeBytes, Nat.ofDigits, ih]

theorem firstIdx_some_spec (p : Nat → Bool) :
    ∀ (l : List Nat) (k : Nat), firstIdx p l = some k →
      ∃ a, p a = true ∧ l[k]? = some a ∧ (∀ b ∈ l.take k, p b = false) ∧
        l = l.take k ++ a :: l.drop (k + 1) := by
  intro l
  induction l with
  | nil => intro k h; simp [firstIdx] at h
  | cons a t ih =>
    intro k h
    by_cases hp : p a
    · simp [firstIdx, hp] at h
      subst h
      exact ⟨a, hp, by simp, by simp, by simp⟩
    · simp [firstIdx, hp] at h
      obtain ⟨k', hk', rfl⟩ := h
      obtain ⟨b, hb, hget, htake, hsplit⟩ := ih k' hk'
      refine ⟨b, hb, by simpa using hget, ?_, ?_⟩
      · intro c hc
        rcases (List.mem_cons.mp (by simpa using hc)) with rfl | hc'
        · simpa using hp
        · exact htake c hc'
      · simpa using congrArg (List.cons a) hsplit

theorem firstIdx_none_spec (p : Nat → Bool) :
    ∀ l : List Nat, firstIdx p l = none → ∀ a ∈ l, p a = false := by
  intro l
  induction l with
  | nil => intro _ a ha; simp at ha
  | cons a t ih =>
    intro h b hb
    by_cases hp : p a
    · simp [firstIdx, hp] at h
    · simp [firstIdx, hp] at h
      rcases List.mem_cons.mp hb with rfl | hb'
      · simpa using hp
      · exact ih h b hb'

theorem read_until0_no_nul {l : List Nat} (h : (0 : Nat) ∉ l) : read_until0 l = l := by
  induction l with
  | nil => rfl
  | cons b t ih =>
    have hb : b ≠ 0 := fun hb => h (hb ▸ List.mem_cons_self b t)
    simp only [read_until0, if_neg hb]
    rw [ih (fun ht => h (List.mem_cons_of_mem b ht))]

theorem exportLoop_spec (c : ExpCtx) :
    ∀ (k i : Nat) (l : List Export), exportLoop c i k = some l →
      l.length = k ∧ ∀ j, j < k → ∃ e, l[j]? = some e ∧ exportEntry c (i + j) = some e := by
  intro k
  induction k with
  | zero =>
    intro i l h
    simp [exportLoop] at h
    subst h
    exact ⟨rfl, fun j hj => absurd hj (Nat.not_lt_zero j)⟩
  | succ k ih =>
    intro i l h
    simp only [exportLoop] at h
    rcases he : exportEntry c i with _ | e <;> rw [he] at h
    · exact absurd h (by simp)
    rcases hr : exportLoop c (i + 1) k with _ | rest <;> rw [hr] at h
    · exact absurd h (by simp)
    obtain ⟨hlen, hall⟩ := ih (i + 1) rest hr
    have : e :: rest = l := by simpa using h
    subst this
    refine ⟨by simp [hlen], fun j hj => ?_⟩
    cases j with
    | zero => exact ⟨e, by simp, by simpa using he⟩
    | succ j =>
      obtain ⟨e', hget, hent⟩ := hall j (Nat.lt_of_succ_lt_succ hj)
      exact ⟨e', by simpa using hget, by rw [show i + (j + 1) = i + 1 + j by omega]; exact hent⟩

theorem exportEntry_inv (c : ExpCtx) (i : Nat) (e : Export)
    (h : exportEntry c i = some e) :
    ∃ nm v, readU32 c.mem (conv_rva c.secs (c.funcs + i * 4)) = some v ∧
      e = ⟨nm, if c.dir_rva ≤ v ∧ v < c.dir_rva + c.dir_len
               then forwardOf (read_str c.mem c.secs v)
               else ExportAddr.Rva v,
           (c.base % 65536 + i % 65536) % 65536⟩ ∧
      (match firstIdx (fun o => o == i % 65536) c.ords with
       | some ni => ∃ rva, readU32 c.mem (conv_rva c.secs (c.names + ni * 4)) = some rva ∧
                      nm = some (read_str c.mem c.secs rva)
       | none => nm = none) := by
  rcases hfi : firstIdx (fun o => o == i % 65536) c.ords with _ | ni
  · simp only [exportEntry, hfi] at h
    rcases hv : readU32 c.mem (conv_rva c.secs (c.funcs + i * 4)) with _ | v
    · rw [hv] at h; exact absurd h (by simp)
    · simp only [hv] at h
      exact ⟨none, v, rfl, (Option.some.inj h).symm, by simp only [hfi]⟩
  · simp only [exportEntry, hfi] at h
    rcases hn : readU32 c.mem (conv_rva c.secs (c.names + ni * 4)) with _ | nameRva
    · rw [hn] at h; exact absurd h (by simp)
    simp only [hn] at h
    rcases hv : readU32 c.mem (conv_rva c.secs (c.funcs + i * 4)) with _ | v
    · rw [hv] at h; exact absurd h (by simp)
    simp only [hv] at h
    refine ⟨some (read_str c.mem c.secs nameRva), v, rfl, (Option.some.inj h).symm, ?_⟩
    simp only [hfi]
    exact ⟨nameRva, hn, rfl⟩

theorem loadExports_eq_loop (mem : List Nat) (secs : List Section)
    (dir_rva dir_len : Nat) (d : ImageExportDirectory) (ordBytes : List Nat)
    (hdir : ¬(dir_rva = 0 ∨ dir_len = 0))
    (hd : parseExportDirectory mem (conv_rva secs dir_rva) = some d)
    (ho : readExact mem (conv_rva secs d.address_of_name_ordinals)
            ((d.number_of_names * 2) % 2 ^ 32) = some ordBytes) :
    loadExports mem secs dir_rva dir_len =
      exportLoop ⟨mem, secs, dir_rva, dir_len, d.address_of_names,
                  d.address_of_functions, d.base, toU16List ordBytes⟩
        0 d.number_of_functions := by
  simp only [loadExports, if_neg hdir, hd, ho]

theorem parseFields_append (ts1 : List Ty) :
    ∀ (vs1 : List Val) (s : List Nat) (vs1' : List Val) (s1 : List Nat),
      vs1.length = ts1.length →
      parseFields ts1 vs1 s = (vs1', s1, true) →
      ∀ (ts2 : List Ty) (vs2 : List Val),
        parseFields (ts1 ++ ts2) (vs1 ++ vs2) s =
          match parseFields ts2 vs2 s1 with
          | (r, s2, ok) => (vs1' ++ r, s2, ok) := by
  induction ts1 with
  | nil =>
    intro vs1 s vs1' s1 hlen h ts2 vs2
    have hv : vs1 = [] := List.length_eq_zero.mp hlen
    subst hv
    simp only [parseFields, Prod.mk.injEq] at h
    obtain ⟨h1, h2, -⟩ := h
    subst h1
    subst h2
    rcases hr : parseFields ts2 vs2 s with ⟨r, s2, ok⟩
    simp [hr]
  | cons t ts ih =>
    intro vs1 s vs1' s1 hlen h ts2 vs2
    rcases vs1 with _ | ⟨v, vs⟩
    · simp at hlen
    have hlen' : vs.length = ts.length := by simpa using hlen
    rcases hp : parseTo t v s with ⟨v', s', ok'⟩
    rcases ok' with _ | _
    · simp only [parseFields, hp] at h
      simp [Prod.mk.injEq] at h
    · simp only [parseFields, hp] at h
      rcases hq : parseFields ts vs s' with ⟨vs'', s'', ok''⟩
      simp only [hq, Prod.mk.injEq] at h
      obtain ⟨h1, h2, h3⟩ := h
      subst h1
      subst h2
      subst h3
      have hstep := ih vs s' vs'' s'' hlen' hq ts2 vs2
      simp only [List.cons_append, parseFields, hp, List.append_eq]
      rw [hstep]

theorem sectionMatches_wrap_false (sec : Section) (rva : Nat)
    (h1 : sec.virt_addr < 2 ^ 32) (h2 : sec.virt_len < 2 ^ 32)
    (hw : 2 ^ 32 ≤ sec.virt_addr + sec.virt_len) :
    sectionMatches sec rva = false := by
  simp only [sectionMatches, Bool.and_eq_false_iff, decide_eq_false_iff_not, not_le, not_lt]
  by_cases hle : sec.virt_addr ≤ rva
  · right
    have hmod : (sec.virt_addr + sec.virt_len) % 2 ^ 32
        = sec.virt_addr + sec.virt_len - 2 ^ 32 := by
      have hlt : sec.virt_addr + sec.virt_len < 2 * 2 ^ 32 := by omega
      omega
    omega
  · left; omega

theorem conv_rva_no_match (addr : Nat) : ∀ secs : List Section,
    (∀ t ∈ secs, sectionMatches t addr = false) → conv_rva secs addr = addr := by
  intro secs
  induction secs with
  | nil => intro _; rfl
  | cons t rest ih =>
    intro h
    have hm := h t (by simp)
    simp only [conv_rva, hm, Bool.false_eq_true, if_false]
    exact ih (fun u hu => h u (by simp [hu]))

/-- C1 (counterexample): the claim reads the containment bound
`virt_addr + virt_len` mathematically, but `conv_rva` computes it in u32
arithmetic.  For the section `{virt_addr = 2^32 - 16, virt_len = 32,
raw_addr = 0}` the address `2^32 - 8` lies in the claimed half-open range,
so the claim demands `raw_addr + (addr - virt_addr) = 8`; the code's
wrapped bound is 16, the containment test fails, and the address comes
back unchanged. -/
theorem conv_rva_spec_cex :
    (4294967280 ≤ 4294967288 ∧ 4294967288 < 4294967280 + 32) ∧
    translateSpec [⟨[], 4294967280, 32, 0, 0, 0⟩] 4294967288 = 8 ∧
    conv_rva [⟨[], 4294967280, 32, 0, 0, 0⟩] 4294967288 = 4294967288 ∧
    (4294967288 : Nat) ≠ 8 := by
  refine ⟨⟨by norm_num, by norm_num⟩, ?_, ?_, by norm_num⟩
  · rfl
  · rfl

theorem translateSpec_cons (sec : Section) (rest : List Section) (addr : Nat) :
    (sec.virt_addr ≤ addr ∧ addr < sec.virt_addr + sec.virt_len →
      translateSpec (sec :: rest) addr = sec.raw_addr + (addr - sec.virt_addr)) ∧
    (¬(sec.virt_addr ≤ addr ∧ addr < sec.virt_addr + sec.virt_len) →
      translateSpec (sec :: rest) addr = translateSpec rest addr) := by
  constructor
  · intro hc
    have hp : (decide (sec.virt_addr ≤ addr) && decide (addr < sec.virt_addr + sec.virt_len)) = true := by
      simp [hc.1, hc.2]
    have hfind := List.find?_cons_of_pos
      (p := fun s : Section => decide (s.virt_addr ≤ addr) && decide (addr < s.virt_addr + s.virt_len))
      rest hp
    simp only [translateSpec, hfind]
  · intro hc
    have hp : ¬((decide (sec.virt_addr ≤ addr) && decide (addr < sec.virt_addr + sec.virt_len)) = true) := by
      simpa [Bool.and_eq_true, decide_eq_true_eq] using hc
    have hfind := List.find?_cons_of_neg
      (p := fun s : Section => decide (s.virt_addr ≤ addr) && decide (addr < s.virt_addr + s.virt_len))
      rest hp
    simp only [translateSpec, hfind]

/-- C1 (amended): for every address and every section list in which each
section satisfies `virt_addr + virt_len < 2^32` (so the u32 upper-bound
addition cannot wrap), `conv_rva` returns
`raw_address + (address - virtual_address)` for the first section in
table order whose half-open range `[virt_addr, virt_addr + virt_len)`
contains the address, and returns the address unchanged when no section
contains it. -/
theorem conv_rva_eq_translateSpec (secs : List Section) (addr : Nat)
    (h : ∀ sec ∈ secs, sec.virt_addr + sec.virt_len < 2 ^ 32) :
    conv_rva secs addr = translateSpec secs addr := by
  induction secs with
  | nil => rfl
  | cons sec rest ih =>
    have hs : sec.virt_addr + sec.virt_len < 2 ^ 32 := h sec (by simp)
    have hrest := ih (fun s hs' => h s (by simp [hs']))
    have hmod : (sec.virt_addr + sec.virt_len) % 2 ^ 32 = sec.virt_addr + sec.virt_len :=
      Nat.mod_eq_of_lt hs
    by_cases hm : sectionMatches sec addr = true
    · have hc : sec.virt_addr ≤ addr ∧ addr < sec.virt_addr + sec.virt_len := by
        have h' := hm
        simp only [sectionMatches, Bool.and_eq_true, decide_eq_true_eq] at h'
        rw [hmod] at h'
        exact h'
      simp only [conv_rva, if_pos hm]
      rw [(translateSpec_cons sec rest addr).1 hc]
      omega
    · have hc : ¬(sec.virt_addr ≤ addr ∧ addr < sec.virt_addr + sec.virt_len) := by
        intro hcon
        apply hm
        simp only [sectionMatches, Bool.and_eq_true, decide_eq_true_eq]
        rw [hmod]
        exact hcon
      have hm' : sectionMatches sec addr = false := Bool.eq_false_iff.mpr hm
      simp only [conv_rva, hm', Bool.false_eq_true, if_false]
      rw [(translateSpec_cons sec rest addr).2 hc]
      exact hrest

/-- C1 (witness): the spec's own example, a section
`{virt=0x1000, vsize=0x200, raw=0x400}`: translating 0x1050 gives 0x450
and both sides agree. -/
theorem conv_rva_eq_translateSpec_witness :
    (∀ sec ∈ [(⟨[], 4096, 512, 1024, 0, 0⟩ : Section)], sec.virt_addr + sec.virt_len < 2 ^ 32) ∧
    conv_rva [⟨[], 4096, 512, 1024, 0, 0⟩] 4176 = translateSpec [⟨[], 4096, 512, 1024, 0, 0⟩] 4176 ∧
    conv_rva [⟨[], 4096, 512, 1024, 0, 0⟩] 4176 = 1104 ∧
    conv_rva [⟨[], 4096, 512, 1024, 0, 0⟩] 20480 = 20480 :=
  ⟨by decide, conv_rva_eq_translateSpec _ 4176 (by decide), by decide, by decide⟩

/-- C10: the upper bound of the containment test is computed in 32-bit
arithmetic before widening, so a section whose virtual range reaches past
`2^32` has a wrapped bound below its own `virt_addr` and can never match;
an address genuinely inside such a section (here with every section of
the list wrapping, so no other section can catch it either) is returned
unchanged by the identity fallback. -/
theorem conv_rva_wrap_identity (secs : List Section) (addr : Nat) (s : Section)
    (hmem : s ∈ secs)
    (hin : s.virt_addr ≤ addr ∧ addr < s.virt_addr + s.virt_len)
    (hall : ∀ t ∈ secs, t.virt_addr < 2 ^ 32 ∧ t.virt_len < 2 ^ 32 ∧
              2 ^ 32 ≤ t.virt_addr + t.virt_len) :
    sectionMatches s addr = false ∧ conv_rva secs addr = addr := by
  constructor
  · obtain ⟨h1, h2, h3⟩ := hall s hmem
    exact sectionMatches_wrap_false s addr h1 h2 h3
  · refine conv_rva_no_match addr secs (fun t ht => ?_)
    obtain ⟨h1, h2, h3⟩ := hall t ht
    exact sectionMatches_wrap_false t addr h1 h2 h3

/-- C10 (witness): the section `{virt_addr = 2^32 - 16, virt_len = 32}`
wraps; the address `2^32 - 8` inside it fails the containment test and
passes through unchanged. -/
theorem conv_rva_wrap_identity_witness :
    ((⟨[], 4294967280, 32, 0, 0, 0⟩ : Section) ∈ [(⟨[], 4294967280, 32, 0, 0, 0⟩ : Section)] ∧
     (4294967280 ≤ 4294967288 ∧ (4294967288 : Nat) < 4294967280 + 32) ∧
     (∀ t ∈ [(⟨[], 4294967280, 32, 0, 0, 0⟩ : Section)],
        t.virt_addr < 2 ^ 32 ∧ t.virt_len < 2 ^ 32 ∧ 2 ^ 32 ≤ t.virt_addr + t.virt_len)) ∧
    sectionMatches ⟨[], 4294967280, 32, 0, 0, 0⟩ 4294967288 = false ∧
    conv_rva [⟨[], 4294967280, 32, 0, 0, 0⟩] 4294967288 = 4294967288 :=
  ⟨⟨by decide, by decide, by decide⟩,
   conv_rva_wrap_identity [⟨[], 4294967280, 32, 0, 0, 0⟩] 4294967288 ⟨[], 4294967280, 32, 0, 0, 0⟩
     (by decide) (by decide) (by decide)⟩

/-- C6: for every scalar width of the `impl_bc!` list (1, 2, 4, 8, 16
bytes — `usize`/`isize` are the 8-byte case), a successful parse consumes
exactly `width` bytes and yields the little-endian interpretation of
those bytes (`Nat.ofDigits 256`; two's-complement via `toSigned` for the
signed types), while a stream shorter than `width` fails the parse with
an I/O error. -/
theorem copy_to_le (w : Nat) (hw : w ∈ ([1, 2, 4, 8, 16] : List Nat)) (s : List Nat) :
    (w ≤ s.length →
      copy_to w s = some (Nat.ofDigits 256 (s.take w), s.drop w) ∧
      copy_to_signed w s = some (toSigned w (Nat.ofDigits 256 (s.take w)), s.drop w)) ∧
    (s.length < w → copy_to w s = none ∧ copy_to_signed w s = none) := by
  clear hw
  constructor
  · intro hle
    have hr : readExactStream s w = some (s.take w, s.drop w) := by
      simp [readExactStream, hle]
    constructor
    · simp [copy_to, hr, fromLeBytes_eq_ofDigits]
    · simp [copy_to_signed, copy_to, hr, fromLeBytes_eq_ofDigits]
  · intro hlt
    have hr : readExactStream s w = none := by
      simp only [readExactStream, ite_eq_right_iff]
      intro hle
      omega
    constructor
    · simp [copy_to, hr]
    · simp [copy_to_signed, copy_to, hr]

/-- C6 (witness): the spec's example, bytes [01,00,00,00] as a 32-bit
unsigned value parse to 1 with nothing left over. -/
theorem copy_to_le_witness :
    (4 : Nat) ∈ ([1, 2, 4, 8, 16] : List Nat) ∧ 4 ≤ ([1, 0, 0, 0] : List Nat).length ∧
    (copy_to 4 [1, 0, 0, 0] = some (Nat.ofDigits 256 ([1, 0, 0, 0] : List Nat), []) ∧
     copy_to_signed 4 [1, 0, 0, 0] = some (toSigned 4 (Nat.ofDigits 256 ([1, 0, 0, 0] : List Nat)), [])) ∧
    Nat.ofDigits 256 ([1, 0, 0, 0] : List Nat) = 1 :=
  ⟨by decide, by decide, (copy_to_le 4 (by decide) [1, 0, 0, 0]).1 (by decide), by
    simp [Nat.ofDigits]⟩

/-- C5: the derived `parse_to` of a composite parses its fields in
source-declaration order and short-circuits at the first failing field
with no rollback.  Concretely: whenever the fields `ts1` all parse
(overwriting their old values `vs1` with `vs1'` and leaving stream `s1`),
(a) the parse of `ts1 ++ ts2` continues with `ts2` from `s1`, prepending
the new values `vs1'`; and (b) if the next field `t` fails on `s1`
leaving the partially-overwritten value `v'`, the whole composite parse
fails at that point: the earlier fields keep their newly parsed values
`vs1'`, the failing field is left as `v'`, and the later fields `vs3`
are left exactly as they were. -/
theorem parse_to_composite (ts1 : List Ty) (vs1 : List Val) (s s1 : List Nat) (vs1' : List Val)
    (hlen : vs1.length = ts1.length)
    (h1 : parseFields ts1 vs1 s = (vs1', s1, true)) :
    (∀ (ts2 : List Ty) (vs2 : List Val) (r : List Val) (s2 : List Nat) (ok : Bool),
        parseFields ts2 vs2 s1 = (r, s2, ok) →
        parseTo (Ty.comp (ts1 ++ ts2)) (Val.comp (vs1 ++ vs2)) s
          = (Val.comp (vs1' ++ r), s2, ok)) ∧
    (∀ (t : Ty) (v : Val) (ts3 : List Ty) (vs3 : List Val) (v' : Val) (s2 : List Nat),
        parseTo t v s1 = (v', s2, false) →
        parseTo (Ty.comp (ts1 ++ t :: ts3)) (Val.comp (vs1 ++ v :: vs3)) s
          = (Val.comp (vs1' ++ v' :: vs3), s2, false)) := by
  constructor
  · intro ts2 vs2 r s2 ok hr
    have happ := parseFields_append ts1 vs1 s vs1' s1 hlen h1 ts2 vs2
    rw [hr] at happ
    simp only [parseTo, happ]
  · intro t v ts3 vs3 v' s2 hf
    have hfields : parseFields (t :: ts3) (v :: vs3) s1 = (v' :: vs3, s2, false) := by
      simp only [parseFields, hf]
    have happ := parseFields_append ts1 vs1 s vs1' s1 hlen h1 (t :: ts3) (v :: vs3)
    rw [hfields] at happ
    simp only [parseTo, happ]

/-- C5 (witness): the spec's example, a struct `(u32 a, u16 b)` parsed
from bytes [01 00 00 00 02 00] yields a = 1, b = 2 in field order. -/
theorem parse_to_composite_witness :
    ([Val.scalar 0] : List Val).length = ([Ty.scalar 4] : List Ty).length ∧
    parseFields [Ty.scalar 4] [Val.scalar 0] [1, 0, 0, 0, 2, 0] = ([Val.scalar 1], [2, 0], true) ∧
    parseFields [Ty.scalar 2] [Val.scalar 0] [2, 0] = ([Val.scalar 2], [], true) ∧
    parseTo (Ty.comp [Ty.scalar 4, Ty.scalar 2]) (Val.comp [Val.scalar 0, Val.scalar 0])
        [1, 0, 0, 0, 2, 0]
      = (Val.comp [Val.scalar 1, Val.scalar 2], [], true) :=
  ⟨rfl, rfl, rfl,
   (parse_to_composite [Ty.scalar 4] [Val.scalar 0] [1, 0, 0, 0, 2, 0] [2, 0] [Val.scalar 1]
      rfl rfl).1 [Ty.scalar 2] [Val.scalar 0] [Val.scalar 2] [] true rfl⟩

/-- C9: when the byte source ends before any NUL is found, `read_str`
still returns success: the buffer read is everything to end of input, the
final byte is dropped even though it is not a NUL, and the rest is
returned; with zero bytes available at the translated offset the result
is the empty string. -/
theorem read_str_eof (mem : List Nat) (secs : List Section) (rva : Nat)
    (h : (0 : Nat) ∉ mem.drop (conv_rva secs rva)) :
    read_str mem secs rva = (mem.drop (conv_rva secs rva)).dropLast ∧
    (mem.length ≤ conv_rva secs rva → read_str mem secs rva = []) := by
  have hr : read_until0 (mem.drop (conv_rva secs rva)) = mem.drop (conv_rva secs rva) :=
    read_until0_no_nul h
  constructor
  · simp only [read_str, hr]
    exact (List.dropLast_eq_take _).symm
  · intro hlen
    have hnil : mem.drop (conv_rva secs rva) = [] := by
      simp [List.drop_eq_nil_iff, hlen]
    simp [read_str, hnil, read_until0]

/-- C9 (witness): reading at offset 1 of the NUL-free buffer [65,66,67]
returns [66] — the final byte 67 is dropped despite not being a NUL. -/
theorem read_str_eof_witness :
    ((0 : Nat) ∉ ([65, 66, 67] : List Nat).drop (conv_rva [] 1)) ∧
    read_str [65, 66, 67] [] 1 = (([65, 66, 67] : List Nat).drop (conv_rva [] 1)).dropLast ∧
    (([65, 66, 67] : List Nat).length ≤ conv_rva [] 1 → read_str [65, 66, 67] [] 1 = []) ∧
    read_str [65, 66, 67] [] 1 = [66] :=
  ⟨by decide, (read_str_eof [65, 66, 67] [] 1 (by decide)).1,
   (read_str_eof [65, 66, 67] [] 1 (by decide)).2, by decide⟩

/-- C7: when the export (respectively import) data-directory entry has
RVA 0 or size 0, the decoder returns success with an empty list — for
every byte source and fuel alike, so nothing further is read. -/
theorem load_dirs_absent (mem : List Nat) (secs : List Section) (va sz fuel : Nat)
    (h : va = 0 ∨ sz = 0) :
    loadExports mem secs va sz = some [] ∧ loadImports mem secs va sz fuel = some [] := by
  constructor
  · simp only [loadExports, if_pos h]
  · simp only [loadImports, if_pos h]

/-- C7 (witness): a zero export/import directory RVA yields empty lists
on a non-trivial source. -/
theorem load_dirs_absent_witness :
    ((0 : Nat) = 0 ∨ (37 : Nat) = 0) ∧
    loadExports [1, 2, 3] [] 0 37 = some [] ∧ loadImports [1, 2, 3] [] 0 37 5 = some [] :=
  ⟨Or.inl rfl, load_dirs_absent [1, 2, 3] [] 0 37 5 (Or.inl rfl)⟩

theorem parseDosHeader_e_magic (mem : List Nat) (dos : ImageDosHeader)
    (h : parseDosHeader mem 0 = some dos) :
    2 ≤ mem.length ∧ dos.e_magic = fromLeBytes (mem.take 2) := by
  simp only [parseDosHeader] at h
  rcases h16 : readU16 mem 0 with _ | m
  · rw [h16] at h; exact absurd h (by simp)
  rcases h32 : readU32 mem 60 with _ | l
  · rw [h16, h32] at h; exact absurd h (by simp)
  rcases h64 : readExact mem 0 64 with _ | pad
  · rw [h16, h32, h64] at h; exact absurd h (by simp)
  rw [h16, h32, h64] at h
  have hdos : dos = ⟨m, l⟩ := (Option.some.inj h).symm
  subst hdos
  simp only [readU16, readExact] at h16
  by_cases hlen : 0 + 2 ≤ mem.length
  · rw [if_pos hlen] at h16
    have hm : m = fromLeBytes ((mem.drop 0).take 2) := (Option.some.inj h16).symm
    constructor
    · omega
    · simpa using hm
  · rw [if_neg hlen] at h16
    exact absurd h16 (by simp)

/-- C8: a source whose first two bytes are not "MZ", or whose NT header
signature field is not "PE\0\0", never yields a parsed image: for every
fuel, `parse_self` returns an error before any section, export or import
decoding happens, so no partial image is exposed.  (The reference
implementation aborts via `assert_eq!`; either way no image is
returned.) -/
theorem parse_self_rejects (mem : List Nat) (hb : ∀ b ∈ mem, b < 256)
    (h : mem.take 2 ≠ [77, 90] ∨
         ∃ dos nt, parseDosHeader mem 0 = some dos ∧
           parseNtHeaders mem dos.e_lfanew = some nt ∧ nt.signature ≠ 17744) :
    ∀ fuel, parse_self mem fuel = none := by
  intro fuel
  rcases hdos : parseDosHeader mem 0 with _ | dos
  · simp [parse_self, hdos]
  rcases hnt : parseNtHeaders mem dos.e_lfanew with _ | nt
  · simp [parse_self, hdos, hnt]
  have hcheck : ¬(dos.e_magic = 23117 ∧ nt.signature = 17744) := by
    rcases h with h | ⟨dos', nt', hdos', hnt', hsig⟩
    · rintro ⟨hm, -⟩
      obtain ⟨hlen2, hmagic⟩ := parseDosHeader_e_magic mem dos hdos
      rcases hmem : mem with _ | ⟨b0, _ | ⟨b1, rest⟩⟩
      · rw [hmem] at hlen2; simp at hlen2
      · rw [hmem] at hlen2; simp at hlen2
      have hb0 : b0 < 256 := hb b0 (by rw [hmem]; simp)
      have hb1 : b1 < 256 := hb b1 (by rw [hmem]; simp)
      rw [hmem] at hmagic
      simp only [List.take, fromLeBytes] at hmagic
      rw [hmagic] at hm
      have hb0' : b0 = 77 := by omega
      have hb1' : b1 = 90 := by omega
      apply h
      rw [hmem, hb0', hb1']
      simp
    · rintro ⟨-, hs⟩
      have hdd : dos' = dos := Option.some.inj (hdos'.symm.trans hdos)
      subst hdd
      have hnn : nt' = nt := Option.some.inj (hnt'.symm.trans hnt)
      subst hnn
      exact hsig hs
  simp [parse_self, hdos, hnt, hcheck]

/-- C8 (witness): 64 zero bytes parse as a DOS header whose magic is not
"MZ"; `parse_self` returns no image. -/
theorem parse_self_rejects_witness :
    (∀ b ∈ memNoMz, b < 256) ∧ memNoMz.take 2 ≠ [77, 90] ∧ parse_self memNoMz 0 = none :=
  ⟨by decide, by decide, parse_self_rejects memNoMz (by decide) (Or.inl (by decide)) 0⟩

/-- C2: for every export-table index whose function RVA (read from the
functions array) lies in `[dir_rva, dir_rva + dir_len)`, the record's
address is a forwarder built from the NUL-terminated string at that RVA
split at most once on '.' (byte 46): with a separator, the module is the
prefix with ".dll" appended and the function is the suffix; with no
separator, the module is the whole string and the function is empty.  A
function RVA outside that range yields a direct RVA address equal to the
value read. -/
theorem exports_forwarder (mem : List Nat) (secs : List Section) (dir_rva dir_len : Nat)
    (d : ImageExportDirectory) (ordBytes : List Nat) (l : List Export) (i : Nat)
    (e : Export) (v : Nat)
    (hdir : ¬(dir_rva = 0 ∨ dir_len = 0))
    (hd : parseExportDirectory mem (conv_rva secs dir_rva) = some d)
    (ho : readExact mem (conv_rva secs d.address_of_name_ordinals)
            ((d.number_of_names * 2) % 2 ^ 32) = some ordBytes)
    (hl : loadExports mem secs dir_rva dir_len = some l)
    (he : l[i]? = some e)
    (hv : readU32 mem (conv_rva secs (d.address_of_functions + i * 4)) = some v) :
    (dir_rva ≤ v ∧ v < dir_rva + dir_len →
       (∃ pre post, read_str mem secs v = pre ++ 46 :: post ∧ (46 : Nat) ∉ pre ∧
          e.addr = ExportAddr.Forwarded (pre ++ [46, 100, 108, 108], post)) ∨
       ((46 : Nat) ∉ read_str mem secs v ∧
          e.addr = ExportAddr.Forwarded (read_str mem secs v, []))) ∧
    (¬(dir_rva ≤ v ∧ v < dir_rva + dir_len) → e.addr = ExportAddr.Rva v) := by
  rw [loadExports_eq_loop mem secs dir_rva dir_len d ordBytes hdir hd ho] at hl
  obtain ⟨hlen, hall⟩ := exportLoop_spec _ _ _ _ hl
  have hlt : i < l.length := by
    by_contra hno
    push_neg at hno
    rw [List.getElem?_eq_none hno] at he
    exact absurd he (by simp)
  obtain ⟨e', hget, hent⟩ := hall i (by omega)
  rw [Nat.zero_add] at hent
  have hee : e' = e := Option.some.inj (hget.symm.trans he)
  subst hee
  obtain ⟨nm, v', hv', heq, hname⟩ := exportEntry_inv _ i e' hent
  dsimp only at hv' heq hname
  have hvv : v' = v := Option.some.inj (hv'.symm.trans hv)
  subst hvv
  have haddr_pos : dir_rva ≤ v' ∧ v' < dir_rva + dir_len →
      e'.addr = forwardOf (read_str mem secs v') := by
    intro hin
    rw [heq]
    simp only [if_pos hin]
  have haddr_neg : ¬(dir_rva ≤ v' ∧ v' < dir_rva + dir_len) →
      e'.addr = ExportAddr.Rva v' := by
    intro hout
    rw [heq]
    simp only [if_neg hout]
  constructor
  · intro hin
    rw [haddr_pos hin]
    rcases hfi : firstIdx (fun b => b == 46) (read_str mem secs v') with _ | k
    · right
      refine ⟨?_, by simp [forwardOf, hfi]⟩
      intro hmem46
      have := firstIdx_none_spec _ _ hfi 46 hmem46
      simp at this
    · left
      obtain ⟨a, ha, hget46, htake, hsplit⟩ := firstIdx_some_spec _ _ _ hfi
      have ha46 : a = 46 := by simpa using ha
      subst ha46
      refine ⟨(read_str mem secs v').take k, (read_str mem secs v').drop (k + 1),
        hsplit, ?_, by simp [forwardOf, hfi]⟩
      intro hmem46
      have := htake 46 hmem46
      simp at this
  · exact haddr_neg

/-- C2 (witness): the spec's example — a function RVA (4140) inside the
export-directory range pointing at "NTDLL.RtlZeroMemory" yields a
forwarder with module "NTDLL.dll" and function "RtlZeroMemory". -/
theorem exports_forwarder_witness :
    (¬((4096 : Nat) = 0 ∨ (100 : Nat) = 0)) ∧
    parseExportDirectory memFwd (conv_rva sampleSecs 4096) = some dirFwd ∧
    readExact memFwd (conv_rva sampleSecs dirFwd.address_of_name_ordinals)
      ((dirFwd.number_of_names * 2) % 2 ^ 32) = some [] ∧
    loadExports memFwd sampleSecs 4096 100
      = some [⟨none, ExportAddr.Forwarded
          ([78, 84, 68, 76, 76, 46, 100, 108, 108],
           [82, 116, 108, 90, 101, 114, 111, 77, 101, 109, 111, 114, 121]), 1⟩] ∧
    readU32 memFwd (conv_rva sampleSecs (dirFwd.address_of_functions + 0 * 4)) = some 4140 ∧
    (((4096 : Nat) ≤ 4140 ∧ (4140 : Nat) < 4096 + 100 →
       (∃ pre post, read_str memFwd sampleSecs 4140 = pre ++ 46 :: post ∧ (46 : Nat) ∉ pre ∧
          (⟨none, ExportAddr.Forwarded
             ([78, 84, 68, 76, 76, 46, 100, 108, 108],
              [82, 116, 108, 90, 101, 114, 111, 77, 101, 109, 111, 114, 121]), 1⟩ : Export).addr
            = ExportAddr.Forwarded (pre ++ [46, 100, 108, 108], post)) ∨
       ((46 : Nat) ∉ read_str memFwd sampleSecs 4140 ∧
          (⟨none, ExportAddr.Forwarded
             ([78, 84, 68, 76, 76, 46, 100, 108, 108],
              [82, 116, 108, 90, 101, 114, 111, 77, 101, 109, 111, 114, 121]), 1⟩ : Export).addr
            = ExportAddr.Forwarded (read_str memFwd sampleSecs 4140, []))) ∧
     (¬((4096 : Nat) ≤ 4140 ∧ (4140 : Nat) < 4096 + 100) →
       (⟨none, ExportAddr.Forwarded
          ([78, 84, 68, 76, 76, 46, 100, 108, 108],
           [82, 116, 108, 90, 101, 114, 111, 77, 101, 109, 111, 114, 121]), 1⟩ : Export).addr
         = ExportAddr.Rva 4140)) :=
  ⟨by decide, rfl, rfl, rfl, rfl,
   exports_forwarder memFwd sampleSecs 4096 100 dirFwd [] _ 0 _ 4140
     (by decide) rfl rfl rfl rfl rfl⟩

/-- C3 (counterexample): the claim says record `i`'s ordinal equals the
directory base plus `i`, but the code computes
`export.base as u16 + i as u16` in u16 arithmetic.  With base 65535 and
two functions, record 1's ordinal is (65535 + 1) mod 2^16 = 0, not
65536. -/
theorem exports_table_cex :
    loadExports memOrdWrap sampleSecs 4096 10
      = some [⟨none, ExportAddr.Rva 100, 65535⟩, ⟨none, ExportAddr.Rva 104, 0⟩] ∧
    ((⟨none, ExportAddr.Rva 104, 0⟩ : Export).ord ≠ 65535 + 1) :=
  ⟨rfl, by decide⟩

/-- C3 (amended): for every export directory with `number_of_functions`
functions, a successful decode produces exactly that many records in
table-index order; record `i`'s ordinal is `(base + i)` reduced modulo
2^16 (both summands are truncated with `as u16` and added in u16
arithmetic); and record `i` has a name exactly when the name-ordinal
array contains the value `i mod 2^16` — at the first such occurrence
`ni`, the name is the NUL-terminated string at the translated RVA found
in the names array at position `ni` — and otherwise has no name. -/
theorem exports_table (mem : List Nat) (secs : List Section) (dir_rva dir_len : Nat)
    (d : ImageExportDirectory) (ordBytes : List Nat) (l : List Export)
    (hdir : ¬(dir_rva = 0 ∨ dir_len = 0))
    (hd : parseExportDirectory mem (conv_rva secs dir_rva) = some d)
    (ho : readExact mem (conv_rva secs d.address_of_name_ordinals)
            ((d.number_of_names * 2) % 2 ^ 32) = some ordBytes)
    (hl : loadExports mem secs dir_rva dir_len = some l) :
    l.length = d.number_of_functions ∧
    ∀ i, i < d.number_of_functions →
      ∃ e, l[i]? = some e ∧
        e.ord = (d.base % 65536 + i % 65536) % 65536 ∧
        ((∃ ni, (toU16List ordBytes)[ni]? = some (i % 65536) ∧
                (i % 65536) ∉ (toU16List ordBytes).take ni ∧
                ∃ rva, readU32 mem (conv_rva secs (d.address_of_names + ni * 4)) = some rva ∧
                       e.name = some (read_str mem secs rva)) ∨
         ((i % 65536) ∉ toU16List ordBytes ∧ e.name = none)) := by
  rw [loadExports_eq_loop mem secs dir_rva dir_len d ordBytes hdir hd ho] at hl
  obtain ⟨hlen, hall⟩ := exportLoop_spec _ _ _ _ hl
  refine ⟨hlen, fun i hi => ?_⟩
  obtain ⟨e, hget, hent⟩ := hall i hi
  rw [Nat.zero_add] at hent
  obtain ⟨nm, v, hv, heq, hname⟩ := exportEntry_inv _ i e hent
  dsimp only at hv heq hname
  refine ⟨e, hget, by rw [heq], ?_⟩
  rcases hfi : firstIdx (fun o => o == i % 65536) (toU16List ordBytes) with _ | ni
  · right
    rw [hfi] at hname
    refine ⟨?_, by rw [heq]; exact hname⟩
    intro hmem
    have := firstIdx_none_spec _ _ hfi (i % 65536) hmem
    simp at this
  · left
    rw [hfi] at hname
    obtain ⟨rva, hrva, hnm⟩ := hname
    obtain ⟨a, ha, hget16, htake, hsplit⟩ := firstIdx_some_spec _ _ _ hfi
    have ha' : a = i % 65536 := by simpa using ha
    subst ha'
    refine ⟨ni, hget16, ?_, rva, hrva, by rw [heq]; exact hnm⟩
    intro hmem
    have := htake _ hmem
    simp at this

/-- C3 (witness): a directory with three functions, base 10 and a single
named entry at table index 1 ("Foo") produces three records with ordinals
10, 11, 12, of which exactly record 1 carries the name. -/
theorem exports_table_witness :
    (¬((4096 : Nat) = 0 ∨ (10 : Nat) = 0)) ∧
    parseExportDirectory memNamed (conv_rva sampleSecs 4096) = some dirNamed ∧
    readExact memNamed (conv_rva sampleSecs dirNamed.address_of_name_ordinals)
      ((dirNamed.number_of_names * 2) % 2 ^ 32) = some [1, 0] ∧
    loadExports memNamed sampleSecs 4096 10
      = some [⟨none, ExportAddr.Rva 100, 10⟩, ⟨some [70, 111, 111], ExportAddr.Rva 104, 11⟩,
              ⟨none, ExportAddr.Rva 108, 12⟩] ∧
    ([⟨none, ExportAddr.Rva 100, 10⟩, ⟨some [70, 111, 111], ExportAddr.Rva 104, 11⟩,
      (⟨none, ExportAddr.Rva 108, 12⟩ : Export)].length = dirNamed.number_of_functions ∧
     ∀ i, i < dirNamed.number_of_functions →
       ∃ e, [⟨none, ExportAddr.Rva 100, 10⟩, ⟨some [70, 111, 111], ExportAddr.Rva 104, 11⟩,
             (⟨none, ExportAddr.Rva 108, 12⟩ : Export)][i]? = some e ∧
         e.ord = (dirNamed.base % 65536 + i % 65536) % 65536 ∧
         ((∃ ni, (toU16List [1, 0])[ni]? = some (i % 65536) ∧
                 (i % 65536) ∉ (toU16List [1, 0]).take ni ∧
                 ∃ rva, readU32 memNamed (conv_rva sampleSecs (dirNamed.address_of_names + ni * 4))
                     = some rva ∧
                   e.name = some (read_str memNamed sampleSecs rva)) ∨
          ((i % 65536) ∉ toU16List [1, 0] ∧ e.name = none))) :=
  ⟨by decide, rfl, rfl, rfl,
   exports_table memNamed sampleSecs 4096 10 dirNamed [1, 0] _ (by decide) rfl rfl rfl⟩

/-- C4: the import decoder reads successive fixed-size (20-byte) import
descriptors from the directory RVA; a descriptor whose name field is 0
terminates the walk and contributes no module; a preceding descriptor
contributes a module whose thunk walk starts at the original-first-thunk
RVA when that field is non-zero and at the first-thunk RVA otherwise,
the walk continuing with the next descriptor at `addr + 20`.  The thunk
walk reads 8-byte entries until a zero entry; a non-zero entry with bit
63 set yields a by-ordinal import of its low 16 bits, and one with bit
63 clear yields a by-name import whose name is read at the entry value
plus 2 (skipping the 2-byte hint). -/
theorem imports_walk (mem : List Nat) (secs : List Section) (f tf addr : Nat)
    (d : ImageImportDescriptor)
    (hd : parseImportDescriptor mem (conv_rva secs addr) = some d) :
    (d.name = 0 → importLoop mem secs tf (f + 1) addr = some []) ∧
    (d.name ≠ 0 → ∀ l, importLoop mem secs tf (f + 1) addr = some l →
       ∃ funcs rest,
         l = { name := read_str mem secs d.name, funcs := funcs } :: rest ∧
         thunkLoop mem secs tf (if d.original_first_thunk = 0 then d.first_thunk
                                else d.original_first_thunk) = some funcs ∧
         importLoop mem secs tf f (addr + 20) = some rest) ∧
    (∀ g a entry, readU64 mem (conv_rva secs a) = some entry →
       (entry = 0 → thunkLoop mem secs (g + 1) a = some []) ∧
       (entry ≠ 0 → ∀ fs, thunkLoop mem secs (g + 1) a = some fs →
          ∃ rest, thunkLoop mem secs g (a + 8) = some rest ∧
            (entry.testBit 63 = true → fs = ImportFunc.ByOrd (entry % 65536) :: rest) ∧
            (entry.testBit 63 = false →
              fs = ImportFunc.ByName (read_str mem secs (entry + 2)) :: rest))) := by
  refine ⟨?_, ?_, ?_⟩
  · intro h0
    simp [importLoop, hd, h0]
  · intro hne l hl
    simp only [importLoop, hd] at hl
    rw [if_neg hne] at hl
    rcases ht : thunkLoop mem secs tf
        (if d.original_first_thunk = 0 then d.first_thunk else d.original_first_thunk)
      with _ | funcs
    · rw [ht] at hl; exact absurd hl (by simp)
    rw [ht] at hl
    rcases hr : importLoop mem secs tf f (addr + 20) with _ | rest
    · rw [hr] at hl; exact absurd hl (by simp)
    rw [hr] at hl
    exact ⟨funcs, rest, (Option.some.inj hl).symm, rfl, rfl⟩
  · intro g a entry hread
    constructor
    · intro h0
      simp [thunkLoop, hread, h0]
    · intro hne fs hfs
      simp only [thunkLoop, hread] at hfs
      rw [if_neg hne] at hfs
      rcases hr : thunkLoop mem secs g (a + 8) with _ | rest
      · rw [hr] at hfs; exact absurd hfs (by simp)
      rw [hr] at hfs
      refine ⟨rest, rfl, ?_, ?_⟩
      · intro hbit
        rw [← Option.some.inj hfs]
        simp [parseImportFunc, hbit]
      · intro hbit
        rw [← Option.some.inj hfs]
        simp [parseImportFunc, hbit]

/-- C4 (witness): the descriptor at offset 0 of `memImp` (name 70,
original_first_thunk 40) produces the module "Bar" with the by-ordinal
entry 7 (thunk 2^63 + 7) and the by-name entry "Foo" (thunk 64, name
read at 66), and the zero-named descriptor at offset 20 terminates the
walk. -/
theorem imports_walk_witness :
    parseImportDescriptor memImp (conv_rva [] 0) = some descImp ∧
    descImp.name ≠ 0 ∧
    importLoop memImp [] 3 2 0
      = some [{ name := [66, 97, 114],
                funcs := [ImportFunc.ByOrd 7, ImportFunc.ByName [70, 111, 111]] }] ∧
    (∃ funcs rest,
       [({ name := [66, 97, 114],
           funcs := [ImportFunc.ByOrd 7, ImportFunc.ByName [70, 111, 111]] } : Import)]
         = { name := read_str memImp [] descImp.name, funcs := funcs } :: rest ∧
       thunkLoop memImp [] 3 (if descImp.original_first_thunk = 0 then descImp.first_thunk
                              else descImp.original_first_thunk) = some funcs ∧
       importLoop memImp [] 3 1 (0 + 20) = some rest) :=
  ⟨rfl, by decide, rfl,
   (imports_walk memImp [] 1 3 0 descImp rfl).2.1 (by decide) _ rfl⟩
